import Mathlib

/-!
Verification of the zero-trust-net control plane against its natural-language
specification.  Each Python function named in the claims is shallowly embedded
as an executable Lean definition, translated clause by clause from the source
under `src/`; theorems about those definitions settle the claims.
-/

namespace ZTN

/-! ## Agent integrity verifier (`control-plane/core/agent_integrity.py`) -/

/-- Python truthiness of an optional string field: `None` and `""` are falsy,
every other string is truthy.  The integrity service tests its optional
hash/version columns only through truthiness (`if node.agent_hash:` etc.). -/
def truthy : Option String → Bool
  | none => false
  | some s => !(s == "")

/-- The columns of the `nodes` table that `agent_integrity.py` reads and
writes.  `database/models.py` under `src/` does not declare the integrity
columns, so their field list is taken from their uses in
`agent_integrity.py` and from the spec data model (§3): `status`,
`agent_hash`, `agent_version`, `last_reported_hash`, `hash_verified`,
`hash_mismatch_count`. -/
structure Node where
  hostname : String
  status : String
  agent_hash : Option String
  agent_version : Option String
  last_reported_hash : Option String
  hash_verified : Bool
  hash_mismatch_count : Nat
deriving Repr, DecidableEq

/-- One `AuditLog` row as written by `AgentIntegrityService._log_audit`
(only the fields the claims mention). -/
structure AuditEntry where
  action : String
  details : String
  severity : String
deriving Repr, DecidableEq

/-- Mutable state of `AgentIntegrityService`: the global expected hash and
the known-good hash dictionary keyed by agent version. -/
structure IntegrityService where
  global_expected_hash : Option String
  known_good_hashes : List (String × String)
deriving Repr, DecidableEq

/-- Python dict lookup on an association list (first binding wins; the
service only ever assigns each version key once per state we consider). -/
def dictLookup (d : List (String × String)) (k : String) : Option String :=
  (d.find? (fun p => p.1 == k)).map (fun p => p.2)

/-- Model of `AgentIntegrityService.get_expected_hash`: node-specific `agent_hash`,
else the version-keyed known-good hash, else the global hash.  Python tests
`node.agent_hash` and `node.agent_version` by truthiness and the dictionary
by key membership. -/
def get_expected_hash (svc : IntegrityService) (node : Node) : Option String :=
  if truthy node.agent_hash then node.agent_hash
  else
    match node.agent_version with
    | some v =>
      if v = "" then svc.global_expected_hash
      else
        match dictLookup svc.known_good_hashes v with
        | some h => some h
        | none => svc.global_expected_hash
    | none => svc.global_expected_hash

/-- Result of one `verify_integrity` call: the updated node row, the audit
rows added in this call, and the returned `(is_valid, action)` pair. -/
structure VerifyOutcome where
  node : Node
  audits : List AuditEntry
  is_valid : Bool
  action : String
deriving Repr, DecidableEq

def HASH_MISMATCH_WARNING_THRESHOLD : Nat := 1

def HASH_MISMATCH_SUSPEND_THRESHOLD : Nat := 3

def HASH_MISMATCH_REVOKE_THRESHOLD : Nat := 5

/-- Model of `AgentIntegrityService.verify_integrity`, translated line by line.
Note the source assigns `node.last_reported_hash = reported_hash` *before*
the first-report test `if not node.agent_hash and not node.last_reported_hash`,
so that test reads the freshly overwritten field. -/
def verify_integrity (svc : IntegrityService) (node0 : Node)
    (reported_hash : String) : VerifyOutcome :=
  let expected_hash := get_expected_hash svc node0
  let node := { node0 with last_reported_hash := some reported_hash }
  if truthy expected_hash = false then
    -- Case 1: no expected hash configured
    let audits :=
      if truthy node.agent_hash = false ∧ truthy node.last_reported_hash = false then
        [⟨"INTEGRITY_FIRST_REPORT", reported_hash, "info"⟩]
      else []
    ⟨{ node with hash_verified := false }, audits, true, "no_expected_hash"⟩
  else if expected_hash = some reported_hash then
    -- Case 2: hash matches
    let audits :=
      if node.hash_verified = false ∨ 0 < node.hash_mismatch_count then
        [⟨"INTEGRITY_VERIFIED", reported_hash, "info"⟩]
      else []
    ⟨{ node with hash_verified := true, hash_mismatch_count := 0 },
      audits, true, "verified"⟩
  else
    -- Case 3: hash mismatch
    let node := { node with hash_verified := false,
                            hash_mismatch_count := node.hash_mismatch_count + 1 }
    let mismatch_count := node.hash_mismatch_count
    let sev := if mismatch_count < HASH_MISMATCH_SUSPEND_THRESHOLD
               then "warning" else "critical"
    let audits := [⟨"INTEGRITY_MISMATCH", reported_hash, sev⟩]
    if HASH_MISMATCH_REVOKE_THRESHOLD ≤ mismatch_count then
      ⟨{ node with status := "revoked" }, audits, false, "revoked"⟩
    else if HASH_MISMATCH_SUSPEND_THRESHOLD ≤ mismatch_count then
      ⟨{ node with status := "suspended" }, audits, false, "suspended"⟩
    else
      ⟨node, audits, false, "mismatch_warning"⟩

/-- Model of `AgentIntegrityService.approve_reported_hash`: returns the success flag,
the updated node row, and the audit rows written. -/
def approve_reported_hash (node : Node) : Bool × Node × List AuditEntry :=
  if truthy node.last_reported_hash = false then (false, node, [])
  else
    (true,
     { node with agent_hash := node.last_reported_hash,
                 hash_verified := true,
                 hash_mismatch_count := 0 },
     [⟨"INTEGRITY_APPROVED", "", "info"⟩])

/-- C1: whenever an expected hash is configured for the node, a call of
`verify_integrity` with a reported hash unequal to the expected hash
increments `hash_mismatch_count` by one and sets `hash_verified` to false;
if the new count reaches the revoke threshold (5) the status becomes
`revoked` and the action is `revoked`, else if it reaches the suspend
threshold (3) the status becomes `suspended` and the action is `suspended`,
else the action is `mismatch_warning` and the status is unchanged; and when
no expected hash is configured the call neither increments the count nor
changes the status. -/
theorem C1_mismatch_escalation (svc : IntegrityService) (node : Node)
    (reported : String) :
    (truthy (get_expected_hash svc node) = true →
     get_expected_hash svc node ≠ some reported →
     (verify_integrity svc node reported).node.hash_mismatch_count
        = node.hash_mismatch_count + 1 ∧
     (verify_integrity svc node reported).node.hash_verified = false ∧
     (HASH_MISMATCH_REVOKE_THRESHOLD ≤ node.hash_mismatch_count + 1 →
        (verify_integrity svc node reported).node.status = "revoked" ∧
        (verify_integrity svc node reported).action = "revoked") ∧
     (node.hash_mismatch_count + 1 < HASH_MISMATCH_REVOKE_THRESHOLD →
      HASH_MISMATCH_SUSPEND_THRESHOLD ≤ node.hash_mismatch_count + 1 →
        (verify_integrity svc node reported).node.status = "suspended" ∧
        (verify_integrity svc node reported).action = "suspended") ∧
     (node.hash_mismatch_count + 1 < HASH_MISMATCH_SUSPEND_THRESHOLD →
        (verify_integrity svc node reported).action = "mismatch_warning" ∧
        (verify_integrity svc node reported).node.status = node.status)) ∧
    (truthy (get_expected_hash svc node) = false →
     (verify_integrity svc node reported).node.hash_mismatch_count
        = node.hash_mismatch_count ∧
     (verify_integrity svc node reported).node.status = node.status) := by
  unfold verify_integrity HASH_MISMATCH_REVOKE_THRESHOLD
    HASH_MISMATCH_SUSPEND_THRESHOLD
  constructor
  · intro h1 h2
    simp only [h1, Bool.true_eq_false, if_false, if_neg h2]
    refine ⟨?_, ?_, ?_, ?_, ?_⟩
    · split
      · rfl
      · split <;> rfl
    · split
      · rfl
      · split <;> rfl
    · intro hge
      rw [if_pos hge]
      exact ⟨rfl, rfl⟩
    · intro hlt hge
      rw [if_neg (by omega), if_pos hge]
      exact ⟨rfl, rfl⟩
    · intro hlt
      rw [if_neg (by omega), if_neg (by omega)]
      exact ⟨rfl, rfl⟩
  · intro h0
    simp [h0]

/-- Witness for C1: a node with global expected hash `"h"`, no prior
mismatches, reporting `"x"`, takes the `mismatch_warning` action. -/
theorem C1_mismatch_escalation_witness :
    (verify_integrity ⟨some "h", []⟩ ⟨"n", "pending", none, none, none, false, 0⟩
        "x").action = "mismatch_warning" :=
  (((C1_mismatch_escalation ⟨some "h", []⟩
      ⟨"n", "pending", none, none, none, false, 0⟩ "x").1
    (by decide) (by decide)).2.2.2.2 (by decide)).1

/-- C4 (code bug): with no expected hash configured and no previously
recorded `last_reported_hash`, `verify_integrity` records the reported hash,
sets `hash_verified` to false and returns action `no_expected_hash` — but it
writes *no* `INTEGRITY_FIRST_REPORT` audit record, because the source
overwrites `node.last_reported_hash` before testing
`if not node.agent_hash and not node.last_reported_hash`, so the test can
only succeed when the reported hash is itself empty. -/
theorem C4_first_report_audit_missing :
    (verify_integrity ⟨none, []⟩ ⟨"app-01", "pending", none, none, none, false, 0⟩
        "abc123").action = "no_expected_hash" ∧
    (verify_integrity ⟨none, []⟩ ⟨"app-01", "pending", none, none, none, false, 0⟩
        "abc123").node.last_reported_hash = some "abc123" ∧
    (verify_integrity ⟨none, []⟩ ⟨"app-01", "pending", none, none, none, false, 0⟩
        "abc123").node.hash_verified = false ∧
    (verify_integrity ⟨none, []⟩ ⟨"app-01", "pending", none, none, none, false, 0⟩
        "abc123").audits = [] := by
  refine ⟨rfl, rfl, rfl, ?_⟩
  decide

/-- C8: `approve_reported_hash` on a node with a (truthy) reported hash
succeeds and afterwards `hash_verified` is true, `hash_mismatch_count` is 0
and `agent_hash` equals `last_reported_hash`; on a node with no reported
hash it fails and leaves the node unchanged. -/
theorem C8_approve_reported_hash (node : Node) :
    (truthy node.last_reported_hash = true →
      (approve_reported_hash node).1 = true ∧
      (approve_reported_hash node).2.1.hash_verified = true ∧
      (approve_reported_hash node).2.1.hash_mismatch_count = 0 ∧
      (approve_reported_hash node).2.1.agent_hash = node.last_reported_hash ∧
      (approve_reported_hash node).2.1.last_reported_hash
        = node.last_reported_hash) ∧
    (truthy node.last_reported_hash = false →
      (approve_reported_hash node).1 = false ∧
      (approve_reported_hash node).2.1 = node) := by
  unfold approve_reported_hash
  constructor
  · intro h
    simp [h]
  · intro h
    simp [h]

/-- Witness for C8: approving a node that reported hash `"r"` succeeds and
copies the hash into `agent_hash`. -/
theorem C8_approve_reported_hash_witness :
    (approve_reported_hash
        ⟨"n", "active", none, none, some "r", false, 2⟩).1 = true ∧
    (approve_reported_hash
        ⟨"n", "active", none, none, some "r", false, 2⟩).2.1.agent_hash
      = some "r" :=
  ⟨((C8_approve_reported_hash
      ⟨"n", "active", none, none, some "r", false, 2⟩).1 (by decide)).1,
   ((C8_approve_reported_hash
      ⟨"n", "active", none, none, some "r", false, 2⟩).1 (by decide)).2.2.2.1⟩

/-! ## IP allocation (`control-plane/core/ipam.py`, `core/node_manager.py`) -/

/-- Last octets of `ipaddress.IPv4Network("10.0.0.0/24").hosts()` in
ascending order: `.1` through `.254` (`hosts()` already excludes the network
address `.0` and the broadcast address `.255`). -/
def hostOctets : List Nat := List.range' 1 254

/-- The reserved last octets of `allocate_ip`: network `.0`, hub `.1`,
broadcast `.255`. -/
def reservedOctets : List Nat := [0, 1, 255]

/-- Model of `ipam.allocate_ip`, with each address `10.0.0.x` represented by its last
octet `x`: scan the hosts in ascending order and return the first that is
neither in use nor reserved.  `used` holds the last octets of the in-use
overlay IPs (an overlay IP outside `10.0.0.0/24` can never equal a candidate
string, so it is irrelevant to the scan).  `none` stands for the source's
pool-exhausted exception. -/
def allocate_ip (used : List Nat) : Option Nat :=
  hostOctets.find? (fun ip => !used.contains ip && !reservedOctets.contains ip)

/-- Model of `node_manager.get_next_ip`: the same ascending scan, but skipping only
`SERVER_IP` (`10.0.0.1`); `.0` and `.255` never occur among `hosts()`. -/
def get_next_ip (used : List Nat) : Option Nat :=
  hostOctets.find? (fun ip => !(ip == 1) && !used.contains ip)

/-- Evaluation of `find?` over an ascending `range'`: it returns exactly the least element
satisfying the predicate. -/
theorem find?_range'_eq_some {p : Nat → Bool} {s n a : Nat} :
    (List.range' s n).find? p = some a ↔
      (s ≤ a ∧ a < s + n ∧ p a = true ∧
        ∀ j, s ≤ j → j < a → p j = false) := by
  induction n generalizing s with
  | zero =>
    simp only [List.range', List.find?_nil]
    constructor
    · intro h; cases h
    · rintro ⟨h1, h2, -, -⟩; omega
  | succ n ih =>
    rw [List.range'_succ, List.find?_cons]
    cases hp : p s
    · rw [ih]
      constructor
      · rintro ⟨h1, h2, h3, h4⟩
        refine ⟨by omega, by omega, h3, ?_⟩
        intro j hj1 hj2
        rcases Nat.eq_or_lt_of_le hj1 with rfl | hlt
        · exact hp
        · exact h4 j hlt hj2
      · rintro ⟨h1, h2, h3, h4⟩
        have hne : a ≠ s := by
          intro heq; rw [heq] at h3; rw [hp] at h3; cases h3
        refine ⟨by omega, by omega, h3, ?_⟩
        intro j hj1 hj2
        exact h4 j (by omega) hj2
    · constructor
      · intro h
        have ha : a = s := by cases h; rfl
        subst ha
        exact ⟨le_refl a, by omega, hp, fun j hj1 hj2 => by omega⟩
      · rintro ⟨h1, h2, h3, h4⟩
        have ha : a = s := by
          by_contra hne
          have := h4 s (le_refl s) (by omega)
          rw [hp] at this; cases this
        subst ha; rfl

/-- The scan predicate of `allocate_ip`, rephrased as a proposition. -/
theorem allocate_pred_iff (used : List Nat) (ip : Nat) :
    (!used.contains ip && !reservedOctets.contains ip) = true ↔
      ip ∉ used ∧ ip ∉ reservedOctets := by
  simp [List.elem_iff, List.contains]

/-- C2: `allocate_ip` returns the numerically smallest host octet that is
neither in use nor reserved (`.0`, `.1`, `.255`) — in particular the result
is never reserved and is distinct from every in-use overlay IP — and it
fails with the pool-exhausted error exactly when every non-reserved host
octet (`.2` … `.254`) is in use. -/
theorem C2_allocate_ip (used : List Nat) :
    (∀ ip, allocate_ip used = some ip →
       (2 ≤ ip ∧ ip ≤ 254) ∧ ip ∉ used ∧ ip ∉ reservedOctets ∧
       (∀ j, 2 ≤ j → j ≤ 254 → j ∉ used → ip ≤ j)) ∧
    (allocate_ip used = none ↔ ∀ j, 2 ≤ j → j ≤ 254 → j ∈ used) := by
  have hres : ∀ j : Nat, 2 ≤ j → j ≤ 254 → j ∉ reservedOctets := by
    intro j hj1 hj2 hj
    simp only [reservedOctets, List.mem_cons, List.not_mem_nil, or_false] at hj
    omega
  constructor
  · intro ip hip
    rw [allocate_ip, hostOctets, find?_range'_eq_some] at hip
    obtain ⟨h1, h2, h3, h4⟩ := hip
    rw [allocate_pred_iff] at h3
    obtain ⟨hu, hr⟩ := h3
    have hip2 : 2 ≤ ip := by
      rcases Nat.eq_or_lt_of_le h1 with rfl | h
      · exfalso; exact hr (by simp [reservedOctets])
      · omega
    refine ⟨⟨hip2, by omega⟩, hu, hr, ?_⟩
    intro j hj1 hj2 hj3
    by_contra hlt
    have hfalse := h4 j (by omega) (by omega)
    have htrue : (!used.contains j && !reservedOctets.contains j) = true :=
      (allocate_pred_iff used j).mpr ⟨hj3, hres j hj1 hj2⟩
    rw [hfalse] at htrue
    cases htrue
  · rw [allocate_ip, hostOctets, List.find?_eq_none]
    constructor
    · intro h j hj1 hj2
      by_contra hju
      exact h j (by rw [List.mem_range'_1]; omega)
        ((allocate_pred_iff used j).mpr ⟨hju, hres j hj1 hj2⟩)
    · intro h x hx hpred
      rw [List.mem_range'_1] at hx
      rw [allocate_pred_iff] at hpred
      have hx2 : 2 ≤ x := by
        rcases Nat.eq_or_lt_of_le hx.1 with rfl | hgt
        · exfalso; exact hpred.2 (by simp [reservedOctets])
        · omega
      exact hpred.1 (h x hx2 (by omega))

/-- Witness for C2: with `.2` and `.3` in use, the allocator hands out
`.4`, which is unused, non-reserved, and minimal among free octets. -/
theorem C2_allocate_ip_witness :
    (2 ≤ 4 ∧ 4 ≤ 254) ∧ 4 ∉ ([2, 3] : List Nat) ∧ 4 ∉ reservedOctets ∧
    (∀ j, 2 ≤ j → j ≤ 254 → j ∉ ([2, 3] : List Nat) → 4 ≤ j) :=
  (C2_allocate_ip [2, 3]).1 4 (by rfl)

/-! ## Node registration (`api/v1/agent.py`, `core/node_manager.py`) -/

/-- A row of the `nodes` table as read and written by the two registration
paths: identity columns plus the allocated overlay IP (represented by its
last octet, as in `allocate_ip`). -/
structure RegNode where
  id : Nat
  hostname : String
  role : String
  public_key : String
  overlay_ip : Nat
deriving Repr, DecidableEq

/-- The autoincrement primary key: one more than the largest id in use. -/
def nextId (db : List RegNode) : Nat :=
  (db.map (fun n => n.id)).foldr max 0 + 1

/-- Model of `api/v1/agent.register_agent`: if some node already has the submitted
public key, return it unchanged; otherwise allocate an IP via
`ipam.allocate_ip` and append a new row.  `none` models the HTTP 500 raised
on pool exhaustion.  The result is the returned node plus the new table
state. -/
def register_agent (db : List RegNode) (hostname role public_key : String) :
    Option (RegNode × List RegNode) :=
  match db.find? (fun n => n.public_key == public_key) with
  | some existing => some (existing, db)
  | none =>
    match allocate_ip (db.map (fun n => n.overlay_ip)) with
    | none => none
    | some ip =>
      let node : RegNode := ⟨nextId db, hostname, role, public_key, ip⟩
      some (node, db ++ [node])

/-- Model of `core/node_manager.register_node`: like `register_agent`, but the
existing-row query matches on `hostname == … OR public_key == …` and the IP
comes from `get_next_ip`. -/
def register_node (db : List RegNode) (hostname role public_key : String) :
    Option (RegNode × List RegNode) :=
  match db.find? (fun n => n.hostname == hostname || n.public_key == public_key) with
  | some existing => some (existing, db)
  | none =>
    match get_next_ip (db.map (fun n => n.overlay_ip)) with
    | none => none
    | some ip =>
      let node : RegNode := ⟨nextId db, hostname, role, public_key, ip⟩
      some (node, db ++ [node])

/-- C9: registering twice with the same `(hostname, public_key)` pair yields
the same node row (hence the same id and overlay IP) and leaves the table
unchanged: the second call finds the row the first call returned, so it
allocates no IP and appends no row.  Holds for both registration paths. -/
theorem C9_register_idempotent (db : List RegNode) (h r pk : String) :
    (∀ n db', register_agent db h r pk = some (n, db') →
       register_agent db' h r pk = some (n, db')) ∧
    (∀ n db', register_node db h r pk = some (n, db') →
       register_node db' h r pk = some (n, db')) := by
  constructor
  · intro n db' hreg
    rw [register_agent] at hreg
    cases hfind : db.find? (fun m => m.public_key == pk) with
    | some existing =>
      rw [hfind] at hreg
      cases hreg
      rw [register_agent, hfind]
    | none =>
      rw [hfind] at hreg
      cases halloc : allocate_ip (db.map fun m => m.overlay_ip) with
      | none => rw [halloc] at hreg; cases hreg
      | some ip =>
        rw [halloc] at hreg
        cases hreg
        rw [register_agent, List.find?_append, hfind]
        simp [List.find?]
  · intro n db' hreg
    rw [register_node] at hreg
    cases hfind : db.find? (fun m => m.hostname == h || m.public_key == pk) with
    | some existing =>
      rw [hfind] at hreg
      cases hreg
      rw [register_node, hfind]
    | none =>
      rw [hfind] at hreg
      cases hip : get_next_ip (db.map fun m => m.overlay_ip) with
      | none => rw [hip] at hreg; cases hreg
      | some ip =>
        rw [hip] at hreg
        cases hreg
        rw [register_node, List.find?_append, hfind]
        simp [List.find?]

/-- Witness for C9: on an empty table, registering `("h1", "K1")` creates
node 1 at `.2`; registering the same pair again returns that node and the
same table. -/
theorem C9_register_idempotent_witness :
    register_agent [⟨1, "h1", "app", "K1", 2⟩] "h1" "app" "K1"
      = some (⟨1, "h1", "app", "K1", 2⟩, [⟨1, "h1", "app", "K1", 2⟩]) :=
  (C9_register_idempotent [] "h1" "app" "K1").1
    ⟨1, "h1", "app", "K1", 2⟩ [⟨1, "h1", "app", "K1", 2⟩] (by rfl)

/-- C10: when the submitted public key matches an existing row,
`register_agent` returns that row unchanged — stored id, hostname, role and
overlay IP are kept even if the submitted hostname or role differ — and
allocates nothing; `register_node` does the same whenever the hostname *or*
the public key matches, so a hostname match alone (with a different key)
already short-circuits. -/
theorem C10_existing_match_short_circuits (db : List RegNode)
    (h r pk : String) :
    (∀ E, db.find? (fun n => n.public_key == pk) = some E →
       register_agent db h r pk = some (E, db)) ∧
    (∀ E, db.find? (fun n => n.hostname == h || n.public_key == pk) = some E →
       register_node db h r pk = some (E, db)) := by
  constructor
  · intro E hE
    rw [register_agent, hE]
  · intro E hE
    rw [register_node, hE]

/-- Witness for C10: a table holding node `("h1", "K1")` answers a
`register_agent` request with matching key but different hostname and role
with the stored row, and a `register_node` request with matching hostname
but different key likewise. -/
theorem C10_existing_match_short_circuits_witness :
    register_agent [⟨1, "h1", "app", "K1", 2⟩] "h2" "db" "K1"
      = some (⟨1, "h1", "app", "K1", 2⟩, [⟨1, "h1", "app", "K1", 2⟩]) ∧
    register_node [⟨1, "h1", "app", "K1", 2⟩] "h1" "ops" "K2"
      = some (⟨1, "h1", "app", "K1", 2⟩, [⟨1, "h1", "app", "K1", 2⟩]) :=
  ⟨(C10_existing_match_short_circuits [⟨1, "h1", "app", "K1", 2⟩]
      "h2" "db" "K1").1 ⟨1, "h1", "app", "K1", 2⟩ (by rfl),
   (C10_existing_match_short_circuits [⟨1, "h1", "app", "K1", 2⟩]
      "h1" "ops" "K2").2 ⟨1, "h1", "app", "K1", 2⟩ (by rfl)⟩

/-! ## Agent-side reconciler (`agent/agent.py`, `agent/node/websocket_client.py`) -/

/-- The reconciler state the version check touches: the last applied
`config_version` plus a ghost log of every version actually handed to
`_apply_config`, in call order. -/
structure AgentState where
  current_config_version : Int
  applied : List Int
deriving Repr, DecidableEq

/-- The version handling of `ZeroTrustAgent.sync_config`: the fetched config
carries `config_version` (default 0); it is applied and stored only when
strictly greater than the current version, otherwise nothing happens.
`HybridClient._poll_config` performs the identical comparison against its
`last_version`. -/
def sync_config (st : AgentState) (new_version : Int) : AgentState :=
  if st.current_config_version < new_version then
    { current_config_version := new_version,
      applied := st.applied ++ [new_version] }
  else st

/-- A whole sequence of received configs, processed in order. -/
def run_sync (st : AgentState) (vs : List Int) : AgentState :=
  vs.foldl sync_config st

/-- C6: a config with version ≤ the last applied version is silently ignored
(nothing is applied and the stored version is unchanged); a strictly greater
version is applied and becomes the stored version; consequently, over any
sequence of received configs, the stored version never decreases and the log
of applied versions is strictly increasing. -/
theorem C6_version_monotone (st : AgentState) (vs : List Int) :
    (∀ v, v ≤ st.current_config_version → sync_config st v = st) ∧
    (∀ v, st.current_config_version < v →
      (sync_config st v).current_config_version = v ∧
      (sync_config st v).applied = st.applied ++ [v]) ∧
    st.current_config_version ≤ (run_sync st vs).current_config_version ∧
    (st.applied.Chain' (· < ·) →
     (∀ a ∈ st.applied, a ≤ st.current_config_version) →
     (run_sync st vs).applied.Chain' (· < ·)) := by
  have hstep : ∀ (s : AgentState) (v : Int),
      s.applied.Chain' (· < ·) →
      (∀ a ∈ s.applied, a ≤ s.current_config_version) →
      ((sync_config s v).applied.Chain' (· < ·) ∧
       (∀ a ∈ (sync_config s v).applied,
          a ≤ (sync_config s v).current_config_version) ∧
       s.current_config_version ≤ (sync_config s v).current_config_version) := by
    intro s v hchain hbound
    rw [sync_config]
    split
    · rename_i hlt
      refine ⟨?_, ?_, by simpa using le_of_lt hlt⟩
      · rw [List.chain'_append]
        refine ⟨hchain, List.chain'_singleton v, ?_⟩
        intro x hx y hy
        simp only [List.head?_cons, Option.mem_def, Option.some.injEq] at hy
        subst hy
        exact lt_of_le_of_lt (hbound x (List.mem_of_mem_getLast? hx)) hlt
      · intro a ha
        simp only [List.mem_append, List.mem_singleton] at ha
        rcases ha with ha | rfl
        · exact le_of_lt (lt_of_le_of_lt (hbound a ha) hlt)
        · exact le_refl a
    · exact ⟨hchain, hbound, le_refl _⟩
  have hrun : ∀ (vs' : List Int) (s : AgentState),
      s.applied.Chain' (· < ·) →
      (∀ a ∈ s.applied, a ≤ s.current_config_version) →
      ((run_sync s vs').applied.Chain' (· < ·) ∧
       s.current_config_version ≤ (run_sync s vs').current_config_version) := by
    intro vs'
    induction vs' with
    | nil => intro s hc hb; exact ⟨hc, le_refl _⟩
    | cons v tl ih =>
      intro s hc hb
      obtain ⟨hc', hb', hle⟩ := hstep s v hc hb
      obtain ⟨hct, hlet⟩ := ih (sync_config s v) hc' hb'
      exact ⟨hct, le_trans hle hlet⟩
  refine ⟨?_, ?_, ?_, ?_⟩
  · intro v hv
    rw [sync_config, if_neg (by omega)]
  · intro v hv
    rw [sync_config, if_pos hv]
    exact ⟨rfl, rfl⟩
  · -- monotonicity of the stored version holds for every starting state:
    -- prove it by folding the step bound without the chain hypotheses
    have : ∀ (vs' : List Int) (s : AgentState),
        s.current_config_version ≤ (run_sync s vs').current_config_version := by
      intro vs'
      induction vs' with
      | nil => intro s; exact le_refl _
      | cons v tl ih =>
        intro s
        refine le_trans ?_ (ih (sync_config s v))
        rw [sync_config]
        split
        · rename_i hlt; simpa using le_of_lt hlt
        · exact le_refl _
    exact this vs st
  · intro hc hb
    exact (hrun vs st hc hb).1

/-- Witness for C6: starting at version 0 and receiving versions
1, 1, 3, 2 in that order, the applied log stays strictly increasing. -/
theorem C6_version_monotone_witness :
    (run_sync ⟨0, []⟩ [1, 1, 3, 2]).applied.Chain' (· < ·) :=
  (C6_version_monotone ⟨0, []⟩ [1, 1, 3, 2]).2.2.2 (by simp) (by simp)

/-! ## Hub command channel manager (`api/v1/hub_websocket.py`) -/

/-- State of `HubWebSocketManager` together with the observable effects the
claim mentions: the registered connection (a channel id), the
`_pending_commands` map (command id paired with whether its future is
already done), the log of websocket closes `(channel, close code)` issued by
the manager, and the command ids whose futures were completed with a
`ConnectionError`. -/
structure HubManager where
  connection : Option Nat
  pending : List (String × Bool)
  closes : List (Nat × Nat)
  conn_errors : List String
deriving Repr, DecidableEq

/-- Model of `HubWebSocketManager.connect`: accept the socket; if a connection is
registered, close it with code 1000; register the new one.  The source does
not touch `_pending_commands` here. -/
def connect (m : HubManager) (new_channel : Nat) : HubManager :=
  match m.connection with
  | some old =>
    { m with connection := some new_channel,
             closes := m.closes ++ [(old, 1000)] }
  | none => { m with connection := some new_channel }

/-- Model of `HubWebSocketManager.disconnect`: drop the registered connection, set a
`ConnectionError` on every not-yet-done pending future, clear the map. -/
def disconnect (m : HubManager) : HubManager :=
  match m.connection with
  | some _ =>
    { m with connection := none,
             pending := [],
             conn_errors := m.conn_errors ++
               (m.pending.filter (fun s => !s.2)).map (fun s => s.1) }
  | none => m

/-- Counterexample to C5 as stated: with hub channel 1 connected and one
pending command slot `cmd_1`, a new successful connect of channel 2 closes
channel 1 with code 1000 and registers channel 2, but `cmd_1` is *not*
completed with a connection-error — it stays pending. -/
theorem C5_counterexample :
    (connect ⟨some 1, [("cmd_1", false)], [], []⟩ 2).closes = [(1, 1000)] ∧
    (connect ⟨some 1, [("cmd_1", false)], [], []⟩ 2).connection = some 2 ∧
    ¬ "cmd_1" ∈ (connect ⟨some 1, [("cmd_1", false)], [], []⟩ 2).conn_errors ∧
    (connect ⟨some 1, [("cmd_1", false)], [], []⟩ 2).pending
      = [("cmd_1", false)] := by
  refine ⟨rfl, rfl, ?_, rfl⟩
  simp [connect]

/-- C5 (amended): a new successful connect supersedes the previous
connection — the old channel is closed with code 1000 and the new connection
becomes the registered one — but the pending command slots are left exactly
as they were; they are completed with a connection-error only when the hub
agent disconnects. -/
theorem C5_connect_supersedes (m : HubManager) (old new_channel : Nat)
    (hc : m.connection = some old) :
    (connect m new_channel).connection = some new_channel ∧
    (connect m new_channel).closes = m.closes ++ [(old, 1000)] ∧
    (connect m new_channel).pending = m.pending ∧
    (connect m new_channel).conn_errors = m.conn_errors ∧
    (disconnect (connect m new_channel)).pending = [] ∧
    (disconnect (connect m new_channel)).conn_errors = m.conn_errors ++
      (m.pending.filter (fun s => !s.2)).map (fun s => s.1) := by
  rw [connect, hc]
  exact ⟨rfl, rfl, rfl, rfl, rfl, rfl⟩

/-- Witness for C5 (amended): connecting channel 2 over channel 1 closes 1
with code 1000 and keeps `cmd_1` pending; the following disconnect fails it. -/
theorem C5_connect_supersedes_witness :
    (connect ⟨some 1, [("cmd_1", false)], [], []⟩ 2).connection = some 2 ∧
    (connect ⟨some 1, [("cmd_1", false)], [], []⟩ 2).closes = [] ++ [(1, 1000)] ∧
    (connect ⟨some 1, [("cmd_1", false)], [], []⟩ 2).pending
      = [("cmd_1", false)] ∧
    (connect ⟨some 1, [("cmd_1", false)], [], []⟩ 2).conn_errors = [] ∧
    (disconnect (connect ⟨some 1, [("cmd_1", false)], [], []⟩ 2)).pending
      = [] ∧
    (disconnect (connect ⟨some 1, [("cmd_1", false)], [], []⟩ 2)).conn_errors
      = [] ++ ([("cmd_1", false)].filter (fun s => !s.2)).map (fun s => s.1) := by
  have h := C5_connect_supersedes ⟨some 1, [("cmd_1", false)], [], []⟩ 1 2 rfl
  exact h

/-! ## Event bus (`control-plane/core/events.py`) -/

/-- One `HandlerRegistration` for a fixed event type: `subIdx` is the
subscription sequence number (a ghost index used to state stability),
`priority` is `EventPriority.value` (HIGH = 1, NORMAL = 5, LOW = 10),
`retry_count` as registered, and `throws k` says whether the handler raises
on its (k+1)-st invocation for the published event. -/
structure Registration where
  subIdx : Nat
  priority : Nat
  retry_count : Nat
  throws : Nat → Bool

/-- The comparator of `subscribe`'s `sort(key=lambda r: r.priority.value)`. -/
def regLE (a b : Registration) : Bool := decide (a.priority ≤ b.priority)

/-- Target ordering: strictly smaller priority value first, ties by
subscription order. -/
def lexLT (a b : Registration) : Prop :=
  a.priority < b.priority ∨ (a.priority = b.priority ∧ a.subIdx < b.subIdx)

/-- Model of `EventBus.subscribe` for one event type: append the registration, then
re-sort the handler list with Python's stable `list.sort` (modelled by the
stable `List.mergeSort`). -/
def subscribe (hs : List Registration) (r : Registration) : List Registration :=
  (hs ++ [r]).mergeSort regLE

/-- A sequence of `subscribe` calls starting from the empty handler list. -/
def subscribeAll (rs : List Registration) : List Registration :=
  rs.foldl subscribe []

/-- Model of `EventBus._execute_handler_sync`: `for attempt in range(retry_count + 1)`
returning after the first invocation that does not raise; the result is the
number of invocations made. -/
def execute_handler_attempts (r : Registration) : Nat :=
  match (List.range (r.retry_count + 1)).find? (fun k => !r.throws k) with
  | some k => k + 1
  | none => r.retry_count + 1

/-- Model of `EventBus.publish` for one event: execute every registered handler in
list order (a failure never aborts the loop); the trace records each handler
invocation by its subscription index. -/
def publish (hs : List Registration) : List Nat :=
  (hs.map (fun r => List.replicate (execute_handler_attempts r) r.subIdx)).flatten

theorem regLE_trans : ∀ a b c : Registration,
    regLE a b = true → regLE b c = true → regLE a c = true := by
  intro a b c
  simp only [regLE, decide_eq_true_eq]
  omega

theorem regLE_total : ∀ a b : Registration, (regLE a b || regLE b a) = true := by
  intro a b
  simp only [regLE, Bool.or_eq_true, decide_eq_true_eq]
  omega

theorem pairwise_lexLT_le {hs : List Registration} (h : hs.Pairwise lexLT) :
    hs.Pairwise (fun a b => regLE a b = true) := by
  refine h.imp ?_
  intro a b hab
  simp only [regLE, decide_eq_true_eq]
  rcases hab with h1 | ⟨h1, -⟩ <;> omega

/-- A sublist whose length is one less than the ambient list is the ambient
list with one element removed. -/
theorem sublist_length_succ_decomp {α : Type} {l r : List α}
    (h : l.Sublist r) (hlen : r.length = l.length + 1) :
    ∃ l₁ l₂ y, l = l₁ ++ l₂ ∧ r = l₁ ++ y :: l₂ := by
  induction h with
  | slnil => simp at hlen
  | cons a h ih =>
    rename_i l' r'
    have heq : l' = r' := h.eq_of_length (by simp at hlen; omega)
    exact ⟨[], l', a, by simp, by simp [heq]⟩
  | cons₂ a h ih =>
    obtain ⟨l₁, l₂, y, h1, h2⟩ := ih (by simpa using hlen)
    exact ⟨a :: l₁, l₂, y, by simp [h1], by simp [h2]⟩

/-- If `P` holds of every member, the "P of the right element" relation is
pairwise. -/
theorem pairwise_of_mem {α : Type} {P : α → Prop} :
    ∀ {l : List α}, (∀ b ∈ l, P b) → l.Pairwise (fun _ b => P b) := by
  intro l
  induction l with
  | nil => intro _; exact List.Pairwise.nil
  | cons a tl ih =>
    intro h
    rw [List.pairwise_cons]
    exact ⟨fun b hb => h b (List.mem_cons_of_mem a hb),
           ih (fun b hb => h b (List.mem_cons_of_mem a hb))⟩

/-- One `subscribe` preserves the ordering invariant: if the handler list is
ordered by `lexLT` with pairwise-distinct subscription indices and the new
registration is fresher than all of them, the re-sorted list is again
`lexLT`-ordered (stability keeps equal priorities in subscription order and
places the newcomer after its priority class). -/
theorem subscribe_pairwise (hs : List Registration) (r : Registration)
    (hord : hs.Pairwise lexLT)
    (hdist : hs.Pairwise (fun a b => a.subIdx ≠ b.subIdx))
    (hfresh : ∀ x ∈ hs, x.subIdx < r.subIdx) :
    (subscribe hs r).Pairwise lexLT ∧
    (subscribe hs r).Pairwise (fun a b => a.subIdx ≠ b.subIdx) ∧
    (subscribe hs r).Perm (hs ++ [r]) := by
  have hperm : (subscribe hs r).Perm (hs ++ [r]) := List.mergeSort_perm _ _
  have hsorted : (subscribe hs r).Pairwise (fun a b => regLE a b = true) :=
    List.sorted_mergeSort regLE_trans regLE_total _
  have hsubl : hs.Sublist (subscribe hs r) :=
    List.sublist_mergeSort regLE_trans regLE_total (pairwise_lexLT_le hord)
      (List.sublist_append_left hs [r])
  have hlen : (subscribe hs r).length = hs.length + 1 := by
    rw [hperm.length_eq, List.length_append]
    rfl
  obtain ⟨l₁, l₂, y, hdec1, hdec2⟩ := sublist_length_succ_decomp hsubl hlen
  have hyperm : (y :: hs).Perm (r :: hs) := by
    have h1 : (subscribe hs r).Perm (y :: (l₁ ++ l₂)) := by
      rw [hdec2]; exact List.perm_middle
    have h2 := (h1.symm.trans hperm).trans (List.perm_append_singleton r hs)
    rw [← hdec1] at h2
    exact h2
  have hyr : y = r := by
    have h2 : (y ::ₘ (hs : Multiset Registration))
        = (r ::ₘ (hs : Multiset Registration)) := by
      exact_mod_cast Multiset.coe_eq_coe.mpr hyperm
    exact (Multiset.cons_inj_left _).mp h2
  have hyr' : r = y := hyr.symm
  subst hyr'
  rw [hdec1, List.pairwise_append] at hord hdist
  obtain ⟨hord1, hord2, hordx⟩ := hord
  obtain ⟨hdist1, hdist2, hdistx⟩ := hdist
  have hfresh1 : ∀ x ∈ l₁, x.subIdx < r.subIdx := fun x hx =>
    hfresh x (by rw [hdec1]; exact List.mem_append_left _ hx)
  have hfresh2 : ∀ x ∈ l₂, x.subIdx < r.subIdx := fun x hx =>
    hfresh x (by rw [hdec1]; exact List.mem_append_right _ hx)
  have hsorted2 := hsorted
  rw [hdec2, List.pairwise_append] at hsorted2
  obtain ⟨hso1, hso2, hsox⟩ := hsorted2
  rw [List.pairwise_cons] at hso2
  obtain ⟨hsy, hso2'⟩ := hso2
  have hnoeq : ∀ v ∈ l₂, r.priority ≠ v.priority := by
    intro v hv heq
    have hvr : regLE v r = true := by
      simp only [regLE, decide_eq_true_eq]
      omega
    have hpair : [v, r].Sublist (hs ++ [r]) := by
      have h1 : [v].Sublist hs := List.singleton_sublist.mpr
        (by rw [hdec1]; exact List.mem_append_right _ hv)
      simpa using List.Sublist.append h1 (List.Sublist.refl [r])
    have hpw : List.Pairwise (fun a b => regLE a b = true) [v, r] := by
      simp [List.pairwise_cons, hvr]
    have hsub2 : [v, r].Sublist (subscribe hs r) :=
      List.sublist_mergeSort regLE_trans regLE_total hpw hpair
    have hS : List.Pairwise
        (fun a b => b.subIdx ≠ r.subIdx ∨ a.subIdx ≠ v.subIdx)
        (subscribe hs r) := by
      rw [hdec2, List.pairwise_append]
      refine ⟨?_, ?_, ?_⟩
      · exact (pairwise_of_mem
          (fun b hb => Nat.ne_of_lt (hfresh1 b hb))).imp Or.inl
      · rw [List.pairwise_cons]
        exact ⟨fun b hb => Or.inl (Nat.ne_of_lt (hfresh2 b hb)),
               (pairwise_of_mem
                 (fun b hb => Nat.ne_of_lt (hfresh2 b hb))).imp Or.inl⟩
      · intro a ha b hb
        rcases List.mem_cons.mp hb with rfl | hb2
        · exact Or.inr (hdistx a ha v hv)
        · exact Or.inl (Nat.ne_of_lt (hfresh2 b hb2))
    have hvr2 := (List.Pairwise.sublist hsub2 hS)
    rw [List.pairwise_cons] at hvr2
    rcases hvr2.1 r (List.mem_singleton.mpr rfl) with h | h
    · exact h rfl
    · exact h rfl
  refine ⟨?_, ?_, hperm⟩
  · rw [hdec2, List.pairwise_append]
    refine ⟨hord1, ?_, ?_⟩
    · rw [List.pairwise_cons]
      refine ⟨?_, hord2⟩
      intro v hv
      have hle := hsy v hv
      simp only [regLE, decide_eq_true_eq] at hle
      rcases lt_or_eq_of_le hle with h | h
      · exact Or.inl h
      · exact absurd h (hnoeq v hv)
    · intro a ha b hb
      rcases List.mem_cons.mp hb with rfl | hb2
      · have hle := hsox a ha b (List.mem_cons_self _ _)
        simp only [regLE, decide_eq_true_eq] at hle
        rcases lt_or_eq_of_le hle with h | h
        · exact Or.inl h
        · exact Or.inr ⟨h, hfresh1 a ha⟩
      · exact hordx a ha b hb2
  · rw [hdec2, List.pairwise_append]
    refine ⟨hdist1, ?_, ?_⟩
    · rw [List.pairwise_cons]
      refine ⟨?_, hdist2⟩
      intro v hv
      exact (Nat.ne_of_lt (hfresh2 v hv)).symm
    · intro a ha b hb
      rcases List.mem_cons.mp hb with rfl | hb2
      · exact Nat.ne_of_lt (hfresh1 a ha)
      · exact hdistx a ha b hb2

/-- Folding `subscribe` over registrations with strictly increasing
subscription indices yields a `lexLT`-ordered handler list. -/
theorem subscribeAll_pairwise :
    ∀ (rs : List Registration) (hs : List Registration),
    hs.Pairwise lexLT →
    hs.Pairwise (fun a b => a.subIdx ≠ b.subIdx) →
    (∀ x ∈ hs, ∀ t ∈ rs, x.subIdx < t.subIdx) →
    rs.Pairwise (fun a b => a.subIdx < b.subIdx) →
    (rs.foldl subscribe hs).Pairwise lexLT := by
  intro rs
  induction rs with
  | nil => intro hs h1 _ _ _; exact h1
  | cons r tl ih =>
    intro hs h1 h2 h3 h4
    rw [List.foldl_cons]
    rw [List.pairwise_cons] at h4
    obtain ⟨hr, h4'⟩ := h4
    have hfresh : ∀ x ∈ hs, x.subIdx < r.subIdx := fun x hx =>
      h3 x hx r (List.mem_cons_self _ _)
    obtain ⟨p1, p2, pperm⟩ := subscribe_pairwise hs r h1 h2 hfresh
    refine ih (subscribe hs r) p1 p2 ?_ h4'
    intro x hx t ht
    rcases List.mem_append.mp (pperm.mem_iff.mp hx) with hxh | hxr
    · exact h3 x hxh t (List.mem_cons_of_mem _ ht)
    · rw [List.mem_singleton] at hxr
      subst hxr
      exact hr t ht

/-- C7: for a list of subscriptions made in order (strictly increasing
subscription indices), the handler list the bus executes on publish is
ordered by ascending priority value with ties in subscription order
(`publish` runs it front to back by definition); a handler that throws on
every allowed attempt is invoked exactly `retry_count + 1` times (the
original call plus `retry_count` retries); a handler that first succeeds on
attempt `k` is invoked `k + 1` times; and every subscribed handler appears
in the publish trace no matter how the other handlers fail. -/
theorem C7_priority_order_retry_isolation (rs : List Registration)
    (hinc : rs.Pairwise (fun a b => a.subIdx < b.subIdx)) :
    (subscribeAll rs).Pairwise lexLT ∧
    (∀ r : Registration, (∀ k, k ≤ r.retry_count → r.throws k = true) →
       execute_handler_attempts r = r.retry_count + 1) ∧
    (∀ (r : Registration) (k : Nat), k ≤ r.retry_count → r.throws k = false →
       (∀ j, j < k → r.throws j = true) →
       execute_handler_attempts r = k + 1) ∧
    (∀ (hs : List Registration) (r : Registration), r ∈ hs →
       r.subIdx ∈ publish hs) := by
  refine ⟨subscribeAll_pairwise rs [] (by simp) (by simp) (by simp) hinc,
    ?_, ?_, ?_⟩
  · intro r hall
    rw [execute_handler_attempts]
    have hnone : (List.range (r.retry_count + 1)).find?
        (fun k => !r.throws k) = none := by
      rw [List.find?_eq_none]
      intro k hk
      rw [List.mem_range] at hk
      simp only [Bool.not_eq_true', Bool.not_eq_false]
      exact hall k (by omega)
    rw [hnone]
  · intro r k hk hkf hjall
    rw [execute_handler_attempts]
    have hsome : (List.range (r.retry_count + 1)).find?
        (fun k => !r.throws k) = some k := by
      rw [List.range_eq_range', find?_range'_eq_some]
      refine ⟨Nat.zero_le k, by omega, ?_, ?_⟩
      · simp only [Bool.not_eq_true', hkf]
      · intro j _ hj
        simp only [hjall j hj, Bool.not_true]
    rw [hsome]
  · intro hs r hr
    rw [publish, List.mem_flatten]
    refine ⟨List.replicate (execute_handler_attempts r) r.subIdx,
      List.mem_map_of_mem _ hr, ?_⟩
    rw [List.mem_replicate]
    refine ⟨?_, rfl⟩
    rw [execute_handler_attempts]
    cases hfind : (List.range (r.retry_count + 1)).find?
        (fun k => !r.throws k) <;> simp

/-- Witness for C7: subscribing an always-failing HIGH=5 handler first and a
succeeding priority-1 handler second gives a `lexLT`-ordered list; the
failing handler is invoked 4 times (retry_count 3), the succeeding one once,
and the failing handler still appears in the publish trace. -/
theorem C7_priority_order_retry_isolation_witness :
    (subscribeAll [⟨0, 5, 3, fun _ => true⟩,
                   ⟨1, 1, 0, fun _ => false⟩]).Pairwise lexLT ∧
    execute_handler_attempts ⟨0, 5, 3, fun _ => true⟩ = 3 + 1 ∧
    execute_handler_attempts ⟨1, 1, 0, fun _ => false⟩ = 0 + 1 ∧
    (0 : Nat) ∈ publish [⟨0, 5, 3, fun _ => true⟩] := by
  have h := C7_priority_order_retry_isolation
    [⟨0, 5, 3, fun _ => true⟩, ⟨1, 1, 0, fun _ => false⟩]
    (by simp [List.pairwise_cons])
  exact ⟨h.1, h.2.1 ⟨0, 5, 3, fun _ => true⟩ (fun k _ => rfl),
    h.2.2.1 ⟨1, 1, 0, fun _ => false⟩ 0 (by omega) rfl (by omega),
    h.2.2.2 [⟨0, 5, 3, fun _ => true⟩] ⟨0, 5, 3, fun _ => true⟩ (by simp)⟩

/-! ## Hub peer sync (`api/v1/hub_websocket.py` trigger_sync,
`agent/hub/wireguard/peer_manager.py` PeerManager.sync_peers)

Python dicts keyed by peer public key are modelled as association lists with
first-insertion order and in-place value replacement (`dinsert`), matching
dict semantics.  The underlying `WireGuardManager` calls catch every
exception internally and report failure by returning `False`, so the
`try/except` blocks inside `sync_peers` can never append to `errors`; the
embedding keeps the (always empty) `errors` field to state the claim.
Whether the `wg` command for a key succeeds is an oracle
`success : String → Bool`. -/

/-- Python dict lookup on an association list. -/
def dlookup {α : Type} (d : List (String × α)) (k : String) : Option α :=
  (d.find? (fun p => p.1 == k)).map (fun p => p.2)

/-- Python dict assignment `d[k] = v`: replace the value in place if the key
exists, else append the binding. -/
def dinsert {α : Type} : List (String × α) → String → α → List (String × α)
  | [], k, v => [(k, v)]
  | p :: t, k, v => if p.1 = k then (k, v) :: t else p :: dinsert t k v

/-- The dict comprehension `{key(x): x for x in l}`. -/
def dictOf {α : Type} (key : α → String) (l : List α) : List (String × α) :=
  l.foldl (fun d x => dinsert d (key x) x) []

/-- One desired peer entry as sent by `trigger_sync`. -/
structure DPeer where
  public_key : String
  allowed_ips : String
deriving Repr, DecidableEq

/-- A registry node as read by `trigger_sync` (`Node.status`,
`Node.public_key`, `Node.overlay_ip`). -/
structure HNode where
  public_key : String
  overlay_ip : String
  status : String
deriving Repr, DecidableEq

/-- Model of `node.overlay_ip.split('/')[0]`. -/
def stripCIDR (s : String) : String := (s.splitOn "/").headD ""

/-- The peer list `trigger_sync` builds from the database: every node with
status `active`, as the pair of its public key and its overlay IP suffixed
with `/32`. -/
def trigger_sync_peers (nodes : List HNode) : List DPeer :=
  (nodes.filter (fun n => n.status == "active")).map
    (fun n => ⟨n.public_key, stripCIDR n.overlay_ip ++ "/32"⟩)

/-- State threaded through one `sync_peers` call: the hub's WireGuard peer
table (`wg`, an association key → allowed_ips), the `PeerManager._peers_cache`,
the four counters, and the `errors` list. -/
structure SyncState where
  wg : List (String × String)
  cache : List (String × String)
  added : Nat
  removed : Nat
  updated : Nat
  unchanged : Nat
  errors : List String
deriving Repr, DecidableEq

/-- Model of `WireGuardManager.add_peer` (also used for updates — `wg set` replaces
the peer's allowed-ips): on success the peer is inserted/replaced. -/
def wg_add_peer (success : String → Bool) (wg : List (String × String))
    (k ips : String) : List (String × String) × Bool :=
  if success k then (dinsert wg k ips, true) else (wg, false)

/-- Model of `WireGuardManager.remove_peer`: on success the peer is removed. -/
def wg_remove_peer (success : String → Bool) (wg : List (String × String))
    (k : String) : List (String × String) × Bool :=
  if success k then (wg.filter (fun p => !(p.1 == k)), true) else (wg, false)

/-- Model of `PeerManager.update_peer`: falsy `allowed_ips` is a no-op returning True;
otherwise re-add with the new allowed-ips and update the cache entry when
the command succeeded and the key is cached. -/
def pm_update_peer (success : String → Bool)
    (wg cache : List (String × String)) (k ips : String) :
    List (String × String) × List (String × String) :=
  if ips = "" then (wg, cache)
  else
    let r := wg_add_peer success wg k ips
    if r.2 && (dlookup cache k).isSome then (r.1, dinsert cache k ips)
    else (r.1, cache)

/-- Model of `PeerManager.add_peer`: a cached key is routed to `update_peer`;
otherwise add and cache on success. -/
def pm_add_peer (success : String → Bool)
    (wg cache : List (String × String)) (k ips : String) :
    List (String × String) × List (String × String) :=
  if (dlookup cache k).isSome then pm_update_peer success wg cache k ips
  else
    let r := wg_add_peer success wg k ips
    if r.2 then (r.1, dinsert cache k ips) else (r.1, cache)

/-- Model of `PeerManager.remove_peer`: remove, and drop the cache entry on success. -/
def pm_remove_peer (success : String → Bool)
    (wg cache : List (String × String)) (k : String) :
    List (String × String) × List (String × String) :=
  let r := wg_remove_peer success wg k
  if r.2 then (r.1, cache.filter (fun p => !(p.1 == k))) else (r.1, cache)

/-- The first loop of `sync_peers`: a current peer whose key is not desired
is removed; `removed` counts every such attempt (the call cannot raise). -/
def removeStep (success : String → Bool) (desired_keys : List (String × DPeer))
    (st : SyncState) (entry : String × (String × String)) : SyncState :=
  if (dlookup desired_keys entry.1).isSome then st
  else
    let r := pm_remove_peer success st.wg st.cache entry.1
    { st with wg := r.1, cache := r.2, removed := st.removed + 1 }

/-- The second loop of `sync_peers`: a desired key missing from the current
set is added; a present key with differing allowed-ips is updated; otherwise
it is counted unchanged. -/
def addUpdateStep (success : String → Bool)
    (current_keys : List (String × (String × String)))
    (st : SyncState) (entry : String × DPeer) : SyncState :=
  match dlookup current_keys entry.1 with
  | none =>
    let r := pm_add_peer success st.wg st.cache entry.1 entry.2.allowed_ips
    { st with wg := r.1, cache := r.2, added := st.added + 1 }
  | some cur =>
    if cur.2 ≠ entry.2.allowed_ips then
      let r := pm_update_peer success st.wg st.cache entry.1 entry.2.allowed_ips
      { st with wg := r.1, cache := r.2, updated := st.updated + 1 }
    else
      { st with unchanged := st.unchanged + 1 }

/-- Model of `PeerManager.sync_peers`: snapshot current peers into a dict, build the
desired dict, remove stale peers, add/update the desired ones, and replace
the cache with the desired dict. -/
def sync_peers (success : String → Bool) (wg0 cache0 : List (String × String))
    (desired : List DPeer) : SyncState :=
  let current_keys := dictOf (fun p => p.1) wg0
  let desired_keys := dictOf (fun p => p.public_key) desired
  let st0 : SyncState := ⟨wg0, cache0, 0, 0, 0, 0, []⟩
  let st1 := current_keys.foldl (removeStep success desired_keys) st0
  let st2 := desired_keys.foldl (addUpdateStep success current_keys) st1
  { st2 with cache := desired_keys.map (fun e => (e.1, e.2.allowed_ips)) }

theorem dlookup_nil {α : Type} (k : String) : dlookup ([] : List (String × α)) k = none := rfl

theorem dlookup_cons {α : Type} (p : String × α) (t : List (String × α))
    (k : String) :
    dlookup (p :: t) k = if p.1 = k then some p.2 else dlookup t k := by
  by_cases h : p.1 = k <;> simp [dlookup, List.find?_cons, h]

theorem dlookup_dinsert_self {α : Type} (d : List (String × α)) (k : String)
    (v : α) : dlookup (dinsert d k v) k = some v := by
  induction d with
  | nil => simp [dinsert, dlookup_cons]
  | cons p t ih =>
    rw [dinsert]
    by_cases h : p.1 = k
    · rw [if_pos h, dlookup_cons]
      simp
    · rw [if_neg h, dlookup_cons, if_neg h]
      exact ih

theorem dlookup_dinsert_ne {α : Type} (d : List (String × α)) {k k' : String}
    (h : k' ≠ k) (v : α) : dlookup (dinsert d k v) k' = dlookup d k' := by
  induction d with
  | nil => rw [dinsert, dlookup_cons, if_neg (Ne.symm h)]
  | cons p t ih =>
    rw [dinsert]
    by_cases hp : p.1 = k
    · rw [if_pos hp, dlookup_cons, dlookup_cons,
        if_neg (Ne.symm h), if_neg (by rw [hp]; exact Ne.symm h)]
    · rw [if_neg hp, dlookup_cons, dlookup_cons]
      by_cases hp' : p.1 = k'
      · rw [if_pos hp', if_pos hp']
      · rw [if_neg hp', if_neg hp']
        exact ih

theorem dlookup_filterOut_self {α : Type} (d : List (String × α)) (k : String) :
    dlookup (d.filter (fun p => !(p.1 == k))) k = none := by
  induction d with
  | nil => rfl
  | cons p t ih =>
    rw [List.filter_cons]
    by_cases h : p.1 = k
    · simp only [h, beq_self_eq_true, Bool.not_true, Bool.false_eq_true,
        if_false]
      exact ih
    · have hb : (!(p.1 == k)) = true := by simp [h]
      rw [if_pos hb, dlookup_cons, if_neg h]
      exact ih

theorem dlookup_filterOut_ne {α : Type} (d : List (String × α)) {k k' : String}
    (h : k' ≠ k) :
    dlookup (d.filter (fun p => !(p.1 == k))) k' = dlookup d k' := by
  induction d with
  | nil => rfl
  | cons p t ih =>
    rw [List.filter_cons, dlookup_cons]
    by_cases hp : p.1 = k
    · simp only [hp, beq_self_eq_true, Bool.not_true, Bool.false_eq_true,
        if_false]
      rw [ih, if_neg (Ne.symm h)]
    · have hb : (!(p.1 == k)) = true := by simp [hp]
      rw [if_pos hb, dlookup_cons]
      by_cases hp' : p.1 = k'
      · rw [if_pos hp', if_pos hp']
      · rw [if_neg hp', if_neg hp']
        exact ih

theorem dlookup_filter_none {α : Type} (d : List (String × α)) (k : String)
    (q : String × α → Bool) (h : dlookup d k = none) :
    dlookup (d.filter q) k = none := by
  induction d with
  | nil => rfl
  | cons p t ih =>
    rw [dlookup_cons] at h
    by_cases hp : p.1 = k
    · rw [if_pos hp] at h; cases h
    · rw [if_neg hp] at h
      rw [List.filter_cons]
      by_cases hq : q p
      · rw [if_pos hq, dlookup_cons, if_neg hp]
        exact ih h
      · rw [if_neg (by simpa using hq)]
        exact ih h

theorem dlookup_none_iff_not_mem_keys {α : Type} (d : List (String × α))
    (k : String) : dlookup d k = none ↔ k ∉ d.map Prod.fst := by
  induction d with
  | nil => simp [dlookup_nil]
  | cons p t ih =>
    rw [dlookup_cons, List.map_cons, List.mem_cons]
    by_cases hp : p.1 = k
    · rw [if_pos hp]
      simp [hp]
    · rw [if_neg hp]
      rw [ih]
      constructor
      · intro h1 h2
        rcases h2 with h2 | h2
        · exact hp h2.symm
        · exact h1 h2
      · intro h1 h2
        exact h1 (Or.inr h2)

theorem dlookup_some_mem {α : Type} {d : List (String × α)} {k : String}
    {v : α} (h : dlookup d k = some v) : (k, v) ∈ d := by
  induction d with
  | nil => cases h
  | cons p t ih =>
    rw [dlookup_cons] at h
    by_cases hp : p.1 = k
    · rw [if_pos hp] at h
      injection h with h
      exact List.mem_cons.mpr (Or.inl (by rw [← hp, ← h]))
    · rw [if_neg hp] at h
      exact List.mem_cons_of_mem _ (ih h)

theorem dinsert_of_none {α : Type} {d : List (String × α)} {k : String}
    (v : α) (h : dlookup d k = none) : dinsert d k v = d ++ [(k, v)] := by
  induction d with
  | nil => rfl
  | cons p t ih =>
    rw [dlookup_cons] at h
    by_cases hp : p.1 = k
    · rw [if_pos hp] at h; cases h
    · rw [if_neg hp] at h
      rw [dinsert, if_neg hp, ih h]
      rfl

theorem dinsert_keys {α : Type} (d : List (String × α)) (k : String) (v : α) :
    (dinsert d k v).map Prod.fst =
      if (dlookup d k).isSome then d.map Prod.fst
      else d.map Prod.fst ++ [k] := by
  induction d with
  | nil => simp [dinsert, dlookup_nil]
  | cons p t ih =>
    rw [dinsert, dlookup_cons]
    by_cases hp : p.1 = k
    · rw [if_pos hp, if_pos hp]
      simp [hp]
    · rw [if_neg hp, if_neg hp, List.map_cons, List.map_cons, ih]
      by_cases hs : (dlookup t k).isSome
      · rw [if_pos hs, if_pos hs]
      · rw [if_neg hs, if_neg hs]
        rfl

theorem dictOf_keys_nodup {α : Type} (key : α → String) (l : List α) :
    ((dictOf key l).map Prod.fst).Nodup := by
  suffices h : ∀ (l : List α) (acc : List (String × α)),
      (acc.map Prod.fst).Nodup →
      ((l.foldl (fun d x => dinsert d (key x) x) acc).map Prod.fst).Nodup by
    exact h l [] (by simp)
  intro l
  induction l with
  | nil => intro acc h; exact h
  | cons x t ih =>
    intro acc h
    rw [List.foldl_cons]
    refine ih _ ?_
    rw [dinsert_keys]
    by_cases hs : (dlookup acc (key x)).isSome
    · rw [if_pos hs]; exact h
    · rw [if_neg hs]
      rw [List.nodup_append]
      refine ⟨h, List.nodup_singleton _, ?_⟩
      intro a ha hb
      rw [List.mem_singleton] at hb
      subst hb
      rw [Option.not_isSome_iff_eq_none, dlookup_none_iff_not_mem_keys] at hs
      exact hs ha

theorem mem_dinsert {α : Type} {d : List (String × α)} {k : String} {v : α} :
    ∀ e ∈ dinsert d k v, e ∈ d ∨ e = (k, v) := by
  induction d with
  | nil =>
    intro e he
    rw [dinsert, List.mem_singleton] at he
    exact Or.inr he
  | cons p t ih =>
    intro e he
    rw [dinsert] at he
    by_cases hp : p.1 = k
    · rw [if_pos hp, List.mem_cons] at he
      rcases he with rfl | he
      · exact Or.inr rfl
      · exact Or.inl (List.mem_cons_of_mem _ he)
    · rw [if_neg hp, List.mem_cons] at he
      rcases he with rfl | he
      · exact Or.inl (List.mem_cons_self _ _)
      · rcases ih e he with h | h
        · exact Or.inl (List.mem_cons_of_mem _ h)
        · exact Or.inr h

theorem dictOf_mem {α : Type} (key : α → String) (l : List α) :
    ∀ e ∈ dictOf key l, e.1 = key e.2 ∧ e.2 ∈ l := by
  suffices h : ∀ (t : List α) (acc : List (String × α)),
      (∀ e ∈ acc, e.1 = key e.2 ∧ e.2 ∈ l) → (∀ x ∈ t, x ∈ l) →
      ∀ e ∈ t.foldl (fun d x => dinsert d (key x) x) acc,
        e.1 = key e.2 ∧ e.2 ∈ l by
    exact h l [] (by simp) (fun x hx => hx)
  intro t
  induction t with
  | nil => intro acc hacc _ e he; exact hacc e he
  | cons x t' ih =>
    intro acc hacc ht e he
    rw [List.foldl_cons] at he
    refine ih _ ?_ (fun z hz => ht z (List.mem_cons_of_mem _ hz)) e he
    intro e' he'
    rcases mem_dinsert e' he' with h | h
    · exact hacc e' h
    · subst h
      exact ⟨rfl, ht x (List.mem_cons_self _ _)⟩

theorem dlookup_append_none {α : Type} {d₁ : List (String × α)}
    (d₂ : List (String × α)) (k : String) (h : dlookup d₁ k = none) :
    dlookup (d₁ ++ d₂) k = dlookup d₂ k := by
  induction d₁ with
  | nil => rfl
  | cons p t ih =>
    rw [dlookup_cons] at h
    by_cases hp : p.1 = k
    · rw [if_pos hp] at h; cases h
    · rw [if_neg hp] at h
      rw [List.cons_append, dlookup_cons, if_neg hp]
      exact ih h

theorem foldl_dinsert_fresh {α : Type} (key : α → String) :
    ∀ (t : List α) (acc : List (String × α)),
    (∀ x ∈ t, dlookup acc (key x) = none) → (t.map key).Nodup →
    t.foldl (fun d x => dinsert d (key x) x) acc
      = acc ++ t.map (fun x => (key x, x)) := by
  intro t
  induction t with
  | nil => intro acc _ _; simp
  | cons x t' ih =>
    intro acc hfresh hnd
    rw [List.map_cons, List.nodup_cons] at hnd
    rw [List.foldl_cons,
      dinsert_of_none x (hfresh x (List.mem_cons_self _ _)), ih]
    · simp
    · intro y hy
      rw [dlookup_append_none _ _ (hfresh y (List.mem_cons_of_mem _ hy)),
        dlookup_cons]
      rw [if_neg ?_]
      · rfl
      · intro heq
        have heq' : key x = key y := heq
        exact hnd.1 (by rw [heq']; exact List.mem_map_of_mem key hy)
    · exact hnd.2

/-- With pairwise-distinct keys a dict comprehension is just the list of
bindings in order. -/
theorem dictOf_of_nodup {α : Type} (key : α → String) (l : List α)
    (h : (l.map key).Nodup) :
    dictOf key l = l.map (fun x => (key x, x)) := by
  rw [dictOf, foldl_dinsert_fresh key l [] (fun x _ => rfl) h]
  rfl

/-- Lookup via `dlookup` on a list of self-keyed bindings is `find?` on the keys. -/
theorem dlookup_map_pair (l : List (String × String)) (k : String) :
    dlookup (l.map (fun p => (p.1, p))) k = l.find? (fun p => p.1 == k) := by
  induction l with
  | nil => rfl
  | cons p t ih =>
    rw [List.map_cons, dlookup_cons, List.find?_cons]
    by_cases hp : p.1 = k
    · rw [if_pos hp]
      simp [hp]
    · rw [if_neg hp]
      have hb : (p.1 == k) = false := by simp [hp]
      rw [hb]
      exact ih

/-! ### Counter bookkeeping of `sync_peers` -/

theorem removePhase_counters (success : String → Bool)
    (dk : List (String × DPeer)) :
    ∀ (es : List (String × (String × String))) (st : SyncState),
    (es.foldl (removeStep success dk) st).added = st.added ∧
    (es.foldl (removeStep success dk) st).updated = st.updated ∧
    (es.foldl (removeStep success dk) st).unchanged = st.unchanged ∧
    (es.foldl (removeStep success dk) st).errors = st.errors ∧
    (es.foldl (removeStep success dk) st).removed
      = st.removed
        + (es.filter (fun e => (dlookup dk e.1).isNone)).length := by
  intro es
  induction es with
  | nil => intro st; exact ⟨rfl, rfl, rfl, rfl, by simp⟩
  | cons e tl ih =>
    intro st
    rw [List.foldl_cons, List.filter_cons]
    obtain ⟨i1, i2, i3, i4, i5⟩ := ih (removeStep success dk st e)
    by_cases hs : (dlookup dk e.1).isSome
    · rw [removeStep, if_pos hs] at i1 i2 i3 i4 i5 ⊢
      have hns : ((dlookup dk e.1).isNone) = false := by
        cases h' : dlookup dk e.1 with
        | none => rw [h'] at hs; simp at hs
        | some v => rfl
      simp only [hns, Bool.false_eq_true, if_false]
      exact ⟨i1, i2, i3, i4, i5⟩
    · rw [removeStep, if_neg hs] at i1 i2 i3 i4 i5 ⊢
      have hns : ((dlookup dk e.1).isNone) = true := by
        cases h' : dlookup dk e.1 with
        | none => rfl
        | some v => rw [h'] at hs; exact absurd rfl hs
      simp only [hns, if_true]
      dsimp only at i1 i2 i3 i4 i5
      refine ⟨i1, i2, i3, i4, ?_⟩
      rw [i5]
      simp only [List.length_cons]
      omega

theorem addUpdatePhase_counters (success : String → Bool)
    (ck : List (String × (String × String))) :
    ∀ (ds : List (String × DPeer)) (st : SyncState),
    (ds.foldl (addUpdateStep success ck) st).removed = st.removed ∧
    (ds.foldl (addUpdateStep success ck) st).errors = st.errors ∧
    (ds.foldl (addUpdateStep success ck) st).added
      + (ds.foldl (addUpdateStep success ck) st).updated
      + (ds.foldl (addUpdateStep success ck) st).unchanged
      = st.added + st.updated + st.unchanged + ds.length := by
  intro ds
  induction ds with
  | nil => intro st; exact ⟨rfl, rfl, by simp⟩
  | cons e tl ih =>
    intro st
    rw [List.foldl_cons]
    obtain ⟨i1, i2, i3⟩ := ih (addUpdateStep success ck st e)
    cases h : dlookup ck e.1 with
    | none =>
      rw [addUpdateStep, h] at i1 i2 i3 ⊢
      dsimp only at i1 i2 i3 ⊢
      refine ⟨i1, i2, ?_⟩
      rw [i3]
      simp only [List.length_cons]
      omega
    | some cur =>
      by_cases hc : cur.2 ≠ e.2.allowed_ips
      · rw [addUpdateStep, h] at i1 i2 i3 ⊢
        dsimp only at i1 i2 i3 ⊢
        rw [if_pos hc] at i1 i2 i3 ⊢
        dsimp only at i1 i2 i3 ⊢
        refine ⟨i1, i2, ?_⟩
        rw [i3]
        simp only [List.length_cons]
        omega
      · rw [addUpdateStep, h] at i1 i2 i3 ⊢
        dsimp only at i1 i2 i3 ⊢
        rw [if_neg hc] at i1 i2 i3 ⊢
        dsimp only at i1 i2 i3 ⊢
        refine ⟨i1, i2, ?_⟩
        rw [i3]
        simp only [List.length_cons]
        omega

/-! ### WireGuard peer-table effects of `sync_peers` -/

theorem pm_update_wg_other (success : String → Bool)
    (wg cache : List (String × String)) (k0 ips : String) {k : String}
    (h : k ≠ k0) :
    dlookup (pm_update_peer success wg cache k0 ips).1 k = dlookup wg k := by
  rw [pm_update_peer]
  by_cases hi : ips = ""
  · rw [if_pos hi]
  · rw [if_neg hi]
    rw [wg_add_peer]
    by_cases hs : success k0
    · simp only [hs, if_true]
      by_cases hc : (dlookup cache k0).isSome
      · simp only [hc, Bool.and_true, if_true]
        exact dlookup_dinsert_ne _ h _
      · simp only [hc, Bool.and_false, Bool.false_eq_true, if_false]
        exact dlookup_dinsert_ne _ h _
    · simp only [hs, Bool.false_eq_true, if_false, Bool.false_and]

theorem pm_update_wg_self (success : String → Bool)
    (wg cache : List (String × String)) (k0 ips : String)
    (hs : success k0 = true) (hi : ips ≠ "") :
    dlookup (pm_update_peer success wg cache k0 ips).1 k0 = some ips := by
  rw [pm_update_peer, if_neg hi, wg_add_peer]
  simp only [hs, if_true]
  by_cases hc : (dlookup cache k0).isSome
  · simp only [hc, Bool.and_true, if_true]
    exact dlookup_dinsert_self _ _ _
  · simp only [hc, Bool.and_false, Bool.false_eq_true, if_false]
    exact dlookup_dinsert_self _ _ _

theorem pm_add_wg_other (success : String → Bool)
    (wg cache : List (String × String)) (k0 ips : String) {k : String}
    (h : k ≠ k0) :
    dlookup (pm_add_peer success wg cache k0 ips).1 k = dlookup wg k := by
  rw [pm_add_peer]
  by_cases hc : (dlookup cache k0).isSome
  · rw [if_pos hc]
    exact pm_update_wg_other success wg cache k0 ips h
  · rw [if_neg hc]
    rw [wg_add_peer]
    by_cases hs : success k0
    · simp only [hs, if_true]
      exact dlookup_dinsert_ne _ h _
    · simp only [hs, Bool.false_eq_true, if_false]

theorem pm_add_wg_self (success : String → Bool)
    (wg cache : List (String × String)) (k0 ips : String)
    (hs : success k0 = true) (hi : ips ≠ "") :
    dlookup (pm_add_peer success wg cache k0 ips).1 k0 = some ips := by
  rw [pm_add_peer]
  by_cases hc : (dlookup cache k0).isSome
  · rw [if_pos hc]
    exact pm_update_wg_self success wg cache k0 ips hs hi
  · rw [if_neg hc]
    rw [wg_add_peer]
    simp only [hs, if_true]
    exact dlookup_dinsert_self _ _ _

theorem removePhase_wg_keep (success : String → Bool)
    (dk : List (String × DPeer)) :
    ∀ (es : List (String × (String × String))) (st : SyncState) (k : String),
    (dlookup dk k).isSome →
    dlookup (es.foldl (removeStep success dk) st).wg k = dlookup st.wg k := by
  intro es
  induction es with
  | nil => intro st k _; rfl
  | cons e tl ih =>
    intro st k hk
    rw [List.foldl_cons, ih _ k hk, removeStep]
    by_cases hs : (dlookup dk e.1).isSome
    · rw [if_pos hs]
    · rw [if_neg hs]
      have hne : k ≠ e.1 := by
        intro heq
        rw [heq] at hk
        exact hs hk
      rw [pm_remove_peer, wg_remove_peer]
      by_cases hsc : success e.1
      · simp only [hsc, if_true]
        exact dlookup_filterOut_ne _ hne
      · simp only [hsc, Bool.false_eq_true, if_false]

theorem removePhase_wg_none (success : String → Bool)
    (dk : List (String × DPeer)) (hsucc : ∀ k, success k = true) :
    ∀ (es : List (String × (String × String))) (st : SyncState) (k : String),
    dlookup dk k = none →
    (k ∈ es.map Prod.fst ∨ dlookup st.wg k = none) →
    dlookup (es.foldl (removeStep success dk) st).wg k = none := by
  intro es
  induction es with
  | nil =>
    intro st k _ hd
    rcases hd with hd | hd
    · simp at hd
    · exact hd
  | cons e tl ih =>
    intro st k hk hd
    rw [List.foldl_cons]
    rcases hd with hd | hd
    · rw [List.map_cons, List.mem_cons] at hd
      rcases hd with rfl | hd
      · refine ih _ e.1 hk (Or.inr ?_)
        have hns : ¬((dlookup dk e.1).isSome = true) := by
          rw [hk]; simp
        rw [removeStep, if_neg hns, pm_remove_peer, wg_remove_peer]
        simp only [hsucc e.1, if_true]
        exact dlookup_filterOut_self _ _
      · exact ih _ k hk (Or.inl hd)
    · refine ih _ k hk (Or.inr ?_)
      rw [removeStep]
      by_cases hs : (dlookup dk e.1).isSome
      · rw [if_pos hs]
        exact hd
      · rw [if_neg hs]
        rw [pm_remove_peer, wg_remove_peer]
        simp only [hsucc e.1, if_true]
        exact dlookup_filter_none _ _ _ hd

theorem dlookup_isSome_of_mem {α : Type} {d : List (String × α)}
    {e : String × α} (h : e ∈ d) : (dlookup d e.1).isSome := by
  rw [dlookup]
  have hf : (d.find? (fun p => p.1 == e.1)).isSome := by
    rw [List.find?_isSome]
    exact ⟨e, h, by simp⟩
  cases hc : d.find? (fun p => p.1 == e.1) with
  | none => rw [hc] at hf; cases hf
  | some q => rfl

/-- The second loop establishes the desired allowed-ips for every desired
key (given that every command succeeds and no desired allowed-ips is empty)
and leaves every other key untouched. -/
theorem addUpdatePhase_wg (success : String → Bool)
    (ck : List (String × (String × String)))
    (hsucc : ∀ k, success k = true) :
    ∀ (ds : List (String × DPeer)) (st : SyncState),
    (ds.map Prod.fst).Nodup →
    (∀ e ∈ ds, e.2.allowed_ips ≠ "") →
    (∀ e ∈ ds, ∀ cur, dlookup ck e.1 = some cur →
       cur.2 = e.2.allowed_ips → dlookup st.wg e.1 = some cur.2) →
    (∀ e ∈ ds, dlookup (ds.foldl (addUpdateStep success ck) st).wg e.1
        = some e.2.allowed_ips) ∧
    (∀ k, k ∉ ds.map Prod.fst →
       dlookup (ds.foldl (addUpdateStep success ck) st).wg k
         = dlookup st.wg k) := by
  intro ds
  induction ds with
  | nil =>
    intro st _ _ _
    exact ⟨fun e he => absurd he (List.not_mem_nil e), fun k _ => rfl⟩
  | cons e tl ih =>
    intro st hnd hips hinv
    rw [List.map_cons, List.nodup_cons] at hnd
    rw [List.foldl_cons]
    have hframe : ∀ k, k ≠ e.1 →
        dlookup (addUpdateStep success ck st e).wg k = dlookup st.wg k := by
      intro k hkne
      rw [addUpdateStep]
      cases h : dlookup ck e.1 with
      | none =>
        dsimp only
        exact pm_add_wg_other success st.wg st.cache e.1 e.2.allowed_ips hkne
      | some cur =>
        dsimp only
        by_cases hc : cur.2 ≠ e.2.allowed_ips
        · rw [if_pos hc]
          dsimp only
          exact pm_update_wg_other success st.wg st.cache e.1
            e.2.allowed_ips hkne
        · rw [if_neg hc]
    have hself : dlookup (addUpdateStep success ck st e).wg e.1
        = some e.2.allowed_ips := by
      rw [addUpdateStep]
      cases h : dlookup ck e.1 with
      | none =>
        dsimp only
        exact pm_add_wg_self success st.wg st.cache e.1 e.2.allowed_ips
          (hsucc e.1) (hips e (List.mem_cons_self _ _))
      | some cur =>
        dsimp only
        by_cases hc : cur.2 ≠ e.2.allowed_ips
        · rw [if_pos hc]
          dsimp only
          exact pm_update_wg_self success st.wg st.cache e.1 e.2.allowed_ips
            (hsucc e.1) (hips e (List.mem_cons_self _ _))
        · rw [if_neg hc]
          dsimp only
          rw [not_not] at hc
          rw [hinv e (List.mem_cons_self _ _) cur h hc, hc]
    obtain ⟨ihA, ihF⟩ := ih (addUpdateStep success ck st e) hnd.2
      (fun t ht => hips t (List.mem_cons_of_mem _ ht))
      (fun t ht cur hcur hcv => by
        rw [hframe t.1 ?_]
        · exact hinv t (List.mem_cons_of_mem _ ht) cur hcur hcv
        · intro heq
          exact hnd.1 (heq ▸ List.mem_map_of_mem Prod.fst ht))
    refine ⟨?_, ?_⟩
    · intro e' he'
      rcases List.mem_cons.mp he' with rfl | he2
      · rw [ihF e'.1 hnd.1]
        exact hself
      · exact ihA e' he2
    · intro k hk
      rw [List.map_cons, List.mem_cons] at hk
      push_neg at hk
      rw [ihF k hk.2]
      exact hframe k hk.1

/-- Unfolding lemma: `sync_peers` decomposed into its two loops and the final cache
replacement (definitional). -/
theorem sync_peers_eq (success : String → Bool)
    (wg0 cache0 : List (String × String)) (desired : List DPeer) :
    sync_peers success wg0 cache0 desired =
      { ((dictOf (fun p => p.public_key) desired).foldl
           (addUpdateStep success (dictOf (fun p => p.1) wg0))
           ((dictOf (fun p => p.1) wg0).foldl
             (removeStep success (dictOf (fun p => p.public_key) desired))
             ⟨wg0, cache0, 0, 0, 0, 0, []⟩)) with
        cache := (dictOf (fun p => p.public_key) desired).map
          (fun e => (e.1, e.2.allowed_ips)) } := rfl

/-- Counterexample to C3 as stated: with no peer configured, one desired
peer `K1`, and the underlying `wg` command failing (returning False, as
`WireGuardManager.add_peer` does on a non-zero exit — no exception), the
sync reports `added = 1` and an *empty* error list, yet `K1` is absent from
the hub's peer table afterwards — so the final peer set does not equal the
desired set modulo the reported errors. -/
theorem C3_counterexample :
    (sync_peers (fun _ => false) [] [] [⟨"K1", "10.0.0.2/32"⟩]).errors = [] ∧
    (sync_peers (fun _ => false) [] [] [⟨"K1", "10.0.0.2/32"⟩]).added = 1 ∧
    dlookup (sync_peers (fun _ => false) [] [] [⟨"K1", "10.0.0.2/32"⟩]).wg
      "K1" = none := ⟨rfl, rfl, rfl⟩

/-- C3 (amended): a triggered hub sync sends `sync_peers` with exactly
`{(N.public_key, N.overlay_ip/32) | N.status = active}`; the returned
counters partition the work — `added + updated + unchanged` equals the size
of the (key-deduplicated) desired set and `removed` counts exactly the
current peers whose key is absent from the desired set; the implementation
never reports error entries (the underlying commands signal failure by a
boolean the sync loop ignores); and *provided every underlying WireGuard
command succeeds* (and the current table has no duplicate keys and no
desired entry has an empty allowed-ips), the hub's peer table afterwards
equals the desired set exactly. -/
theorem C3_sync_peers_amended (nodes : List HNode) (success : String → Bool)
    (wg0 cache0 : List (String × String)) (desired : List DPeer) :
    (∀ p, p ∈ trigger_sync_peers nodes ↔ ∃ n ∈ nodes, n.status = "active" ∧
        p = ⟨n.public_key, stripCIDR n.overlay_ip ++ "/32"⟩) ∧
    (sync_peers success wg0 cache0 desired).added
      + (sync_peers success wg0 cache0 desired).updated
      + (sync_peers success wg0 cache0 desired).unchanged
      = (dictOf (fun p => p.public_key) desired).length ∧
    (sync_peers success wg0 cache0 desired).removed
      = ((dictOf (fun p => p.1) wg0).filter
          (fun e => (dlookup (dictOf (fun p => p.public_key) desired)
            e.1).isNone)).length ∧
    (sync_peers success wg0 cache0 desired).errors = [] ∧
    ((∀ k, success k = true) → (wg0.map (fun p => p.1)).Nodup →
     (∀ p ∈ desired, p.allowed_ips ≠ "") →
     ∀ k, dlookup (sync_peers success wg0 cache0 desired).wg k
        = (dlookup (dictOf (fun p => p.public_key) desired) k).map
            (fun p => p.allowed_ips)) := by
  refine ⟨?_, ?_, ?_, ?_, ?_⟩
  · intro p
    rw [trigger_sync_peers, List.mem_map]
    constructor
    · rintro ⟨n, hn, rfl⟩
      rw [List.mem_filter] at hn
      exact ⟨n, hn.1, by simpa using hn.2, rfl⟩
    · rintro ⟨n, hn, hst, rfl⟩
      exact ⟨n, List.mem_filter.mpr ⟨hn, by simp [hst]⟩, rfl⟩
  · rw [sync_peers_eq]
    dsimp only
    obtain ⟨-, -, hsum⟩ := addUpdatePhase_counters success
      (dictOf (fun p => p.1) wg0) (dictOf (fun p => p.public_key) desired)
      ((dictOf (fun p => p.1) wg0).foldl
        (removeStep success (dictOf (fun p => p.public_key) desired))
        ⟨wg0, cache0, 0, 0, 0, 0, []⟩)
    rw [hsum]
    obtain ⟨r1, r2, r3, -, -⟩ := removePhase_counters success
      (dictOf (fun p => p.public_key) desired) (dictOf (fun p => p.1) wg0)
      ⟨wg0, cache0, 0, 0, 0, 0, []⟩
    rw [r1, r2, r3]
    dsimp only
    omega
  · rw [sync_peers_eq]
    dsimp only
    obtain ⟨hrem, -, -⟩ := addUpdatePhase_counters success
      (dictOf (fun p => p.1) wg0) (dictOf (fun p => p.public_key) desired)
      ((dictOf (fun p => p.1) wg0).foldl
        (removeStep success (dictOf (fun p => p.public_key) desired))
        ⟨wg0, cache0, 0, 0, 0, 0, []⟩)
    rw [hrem]
    obtain ⟨-, -, -, -, r5⟩ := removePhase_counters success
      (dictOf (fun p => p.public_key) desired) (dictOf (fun p => p.1) wg0)
      ⟨wg0, cache0, 0, 0, 0, 0, []⟩
    rw [r5]
    dsimp only
    omega
  · rw [sync_peers_eq]
    dsimp only
    obtain ⟨-, herr, -⟩ := addUpdatePhase_counters success
      (dictOf (fun p => p.1) wg0) (dictOf (fun p => p.public_key) desired)
      ((dictOf (fun p => p.1) wg0).foldl
        (removeStep success (dictOf (fun p => p.public_key) desired))
        ⟨wg0, cache0, 0, 0, 0, 0, []⟩)
    rw [herr]
    obtain ⟨-, -, -, r4, -⟩ := removePhase_counters success
      (dictOf (fun p => p.public_key) desired) (dictOf (fun p => p.1) wg0)
      ⟨wg0, cache0, 0, 0, 0, 0, []⟩
    rw [r4]
  · intro hsucc hnodup hips k
    rw [sync_peers_eq]
    dsimp only
    have hckeq : dictOf (fun p => p.1) wg0 = wg0.map (fun p => (p.1, p)) :=
      dictOf_of_nodup (fun p => p.1) wg0 hnodup
    have hinv : ∀ e ∈ dictOf (fun p => p.public_key) desired,
        ∀ cur, dlookup (dictOf (fun p => p.1) wg0) e.1 = some cur →
        cur.2 = e.2.allowed_ips →
        dlookup ((dictOf (fun p => p.1) wg0).foldl
            (removeStep success (dictOf (fun p => p.public_key) desired))
            ⟨wg0, cache0, 0, 0, 0, 0, []⟩).wg e.1 = some cur.2 := by
      intro e he cur hcur hcv
      rw [removePhase_wg_keep success _ _ _ _ (dlookup_isSome_of_mem he)]
      rw [hckeq, dlookup_map_pair] at hcur
      show dlookup wg0 e.1 = some cur.2
      rw [dlookup, hcur]
      rfl
    obtain ⟨hA, hF⟩ := addUpdatePhase_wg success (dictOf (fun p => p.1) wg0)
      hsucc (dictOf (fun p => p.public_key) desired)
      ((dictOf (fun p => p.1) wg0).foldl
        (removeStep success (dictOf (fun p => p.public_key) desired))
        ⟨wg0, cache0, 0, 0, 0, 0, []⟩)
      (dictOf_keys_nodup _ _)
      (fun e he => hips e.2 (dictOf_mem _ _ e he).2)
      hinv
    cases hdlk : dlookup (dictOf (fun p => p.public_key) desired) k with
    | some p =>
      have hmem : (k, p) ∈ dictOf (fun p => p.public_key) desired :=
        dlookup_some_mem hdlk
      exact hA (k, p) hmem
    | none =>
      have hknot : k ∉ (dictOf (fun p => p.public_key) desired).map
          Prod.fst := by
        rw [← dlookup_none_iff_not_mem_keys]
        exact hdlk
      rw [hF k hknot]
      rw [removePhase_wg_none success _ hsucc _ _ k hdlk ?_]
      · rfl
      · cases hwg : dlookup wg0 k with
        | none => exact Or.inr rfl
        | some v =>
          refine Or.inl ?_
          rw [dlookup] at hwg
          cases hq : wg0.find? (fun p => p.1 == k) with
          | none => rw [hq] at hwg; cases hwg
          | some q =>
            have hq1 : q.1 = k := by
              have := List.find?_some hq
              simpa using this
            have hqm : q ∈ wg0 := List.mem_of_find?_eq_some hq
            rw [hckeq, List.map_map]
            have : k ∈ wg0.map (fun p => p.1) := by
              rw [← hq1]
              exact List.mem_map_of_mem _ hqm
            simpa using this

/-- Witness for C3 (amended): current table `{K2 ↦ 10.0.0.3/32}`, desired
`{K1 ↦ 10.0.0.2/32}`, every command succeeding: one peer added, one removed,
no errors, and `K1` ends up in the table with its desired allowed-ips. -/
theorem C3_sync_peers_amended_witness :
    (sync_peers (fun _ => true) [("K2", "10.0.0.3/32")] []
      [⟨"K1", "10.0.0.2/32"⟩]).added
      + (sync_peers (fun _ => true) [("K2", "10.0.0.3/32")] []
          [⟨"K1", "10.0.0.2/32"⟩]).updated
      + (sync_peers (fun _ => true) [("K2", "10.0.0.3/32")] []
          [⟨"K1", "10.0.0.2/32"⟩]).unchanged = 1 ∧
    (sync_peers (fun _ => true) [("K2", "10.0.0.3/32")] []
      [⟨"K1", "10.0.0.2/32"⟩]).removed = 1 ∧
    (sync_peers (fun _ => true) [("K2", "10.0.0.3/32")] []
      [⟨"K1", "10.0.0.2/32"⟩]).errors = [] ∧
    dlookup (sync_peers (fun _ => true) [("K2", "10.0.0.3/32")] []
      [⟨"K1", "10.0.0.2/32"⟩]).wg "K1" = some "10.0.0.2/32" := by
  have h := C3_sync_peers_amended [] (fun _ => true)
    [("K2", "10.0.0.3/32")] [] [⟨"K1", "10.0.0.2/32"⟩]
  refine ⟨?_, ?_, h.2.2.2.1, ?_⟩
  · rw [h.2.1]
    rfl
  · rw [h.2.2.1]
    rfl
  · have hc := h.2.2.2.2 (fun _ => rfl) (by simp) (by decide) "K1"
    rw [hc]
    rfl

end ZTN
